import Mathlib

/-!
Verification of the sparse-maq MCKP path solver against its specification.

The Python layer (`sparse_maq/mckp.py`: the id interner in `Solver.__init__`,
the `fit` ingestion pipeline, `predict`, and the path accessors) is embedded
directly.  Monetary quantities (rewards, costs, spend, gain, budgets), which
the source holds as IEEE-754 doubles, are modelled as exact rationals, and
polars data-frame operations are modelled as list operations.  The compiled
C++ core (`solver_cpp`, built from `core/src`, not part of the Python
sources) is modelled from the specification: the per-unit Pareto filter of
spec section 4.3 and the priority-queue path solver of spec section 4.4.
-/

namespace SparseMaq

/-- A per-(unit, arm) entry of the solver core: internal arm index `k`,
reward `r` and cost `c` (doubles in the source, exact rationals here). -/
structure Entry where
  k : Nat
  r : ℚ
  c : ℚ
  deriving DecidableEq, Repr

/-- One emitted path step: cumulative spend `s`, cumulative gain `g`,
unit index `u` and arm index `k`. -/
structure Step where
  s : ℚ
  g : ℚ
  u : Nat
  k : Nat
  deriving DecidableEq, Repr

/-- The `SolverOutput` dataclass of `mckp.py`: four parallel path arrays and
the completeness flag. -/
structure SolverOutput where
  spend : List ℚ
  gain : List ℚ
  ipath : List Nat
  kpath : List Nat
  complete_path : Bool
  deriving DecidableEq, Repr

/-! ### Id interner (`Solver.__init__`)

`unique_patients` and `unique_treatments` are single-column frames of ids;
the mappings are frames pairing each id with its dense integer index.
Strings are compared in the lexicographic (codepoint) order polars uses for
ASCII data, and `str.to_lowercase` is modelled by per-character ASCII
lowercasing. -/

/-- Lexicographic string order (polars' order on ASCII strings). -/
def strLt (a b : String) : Prop := a.data < b.data

instance : DecidableRel strLt := fun a b => by
  unfold strLt; infer_instance

/-- ASCII lowercasing of a string (`str.to_lowercase` on ASCII data). -/
def lowerStr (s : String) : String := String.mk (s.data.map Char.toLower)

/-- Polars `rank("dense")` of value `s` within column `l` (ascending):
one plus the number of distinct values strictly below `s`. -/
def rankDense (l : List String) (s : String) : Nat :=
  ((l.filter (fun t => decide (strLt t s))).dedup).length + 1

/-- `self.patient_id_mapping`: each patient id paired with
`rank("dense") - 1`. -/
def patientIdMapping (ids : List String) : List (String × Nat) :=
  ids.map (fun s => (s, rankDense ids s - 1))

/-- The non-DNS arm ids (the `filter` in `Solver.__init__`). -/
def nonDns (ids : List String) : List String :=
  ids.filter (fun s => decide ¬(lowerStr s = "dns"))

/-- `self.treatment_id_mapping`: DNS rows (case-insensitive) are removed,
the remaining ids get `rank("dense")` (so indices `1..K-1`), and the literal
lowercase row `("dns", 0)` is stacked back on. -/
def treatmentIdMapping (ids : List String) : List (String × Nat) :=
  (nonDns ids).map (fun s => (s, rankDense (nonDns ids) s)) ++ [("dns", 0)]

/-- Join a single id against a mapping frame (inner join on the id column):
the matching index, if any. -/
def lookupNum (m : List (String × Nat)) (s : String) : Option Nat :=
  (m.find? (fun p => p.1 = s)).map (fun p => p.2)

/-- Join a single index against a mapping frame (inner join on the index
column): the matching id, if any.  This is the decoding join `predict`
performs. -/
def decodeId (m : List (String × Nat)) (n : Nat) : Option String :=
  (m.find? (fun p => p.2 = n)).map (fun p => p.1)

/-! ### Per-unit Pareto filter (spec section 4.3)

Modelled from the spec: this stage lives in the C++ core (`core/src`), whose
sources are not part of the Python package; spec section 4.3 defines it.
Entry lists are reduced to the upper-left Pareto frontier in (cost, reward)
space: prepend the control `(0, 0)`, drop non-control entries with
non-positive cost and entries with non-positive reward, sort by cost
ascending breaking ties by reward descending, then walk with a stack
removing strictly dominated entries and concavity violations. -/

/-- The synthetic control entry: arm 0, reward 0, cost 0. -/
def control : Entry := ⟨0, 0, 0⟩

/-- Marginal slope from entry `p` up to entry `q`. -/
def slope (p q : Entry) : ℚ := (q.r - p.r) / (q.c - p.c)

/-- Spec section 4.3 step 2: keep non-control entries with positive cost and
positive reward. -/
def keepEntry (e : Entry) : Bool := decide (e.k ≠ 0 ∧ 0 < e.c ∧ 0 < e.r)

/-- Sort key of spec section 4.3 step 3: cost ascending, ties by reward
descending. -/
def leE (a b : Entry) : Prop := a.c < b.c ∨ (a.c = b.c ∧ b.r ≤ a.r)

instance : DecidableRel leE := fun a b => by
  unfold leE; infer_instance

instance : IsTotal Entry leE := by
  constructor
  intro a b
  rcases lt_trichotomy a.c b.c with h | h | h
  · exact Or.inl (Or.inl h)
  · rcases le_total b.r a.r with hr | hr
    · exact Or.inl (Or.inr ⟨h, hr⟩)
    · exact Or.inr (Or.inr ⟨h.symm, hr⟩)
  · exact Or.inr (Or.inl h)

instance : IsTrans Entry leE := by
  constructor
  rintro a b c (h₁ | ⟨h₁, h₁r⟩) (h₂ | ⟨h₂, h₂r⟩)
  · exact Or.inl (h₁.trans h₂)
  · exact Or.inl (h₂ ▸ h₁)
  · exact Or.inl (h₁ ▸ h₂)
  · exact Or.inr ⟨h₁.trans h₂, h₂r.trans h₁r⟩

/-- Spec section 4.3 step 4: push a new entry onto the stack of kept entries
(head is the top).  A new entry whose reward does not exceed the top's is
dropped; otherwise tops are popped while the slope from the top to the new
entry is at least the slope from the prior-to-top to the top. -/
def pushEntry (e : Entry) : List Entry → List Entry
  | [] => [e]
  | [t] => if e.r ≤ t.r then [t] else [e, t]
  | t :: p :: rest =>
    if e.r ≤ t.r then t :: p :: rest
    else if slope p t ≤ slope t e then pushEntry e (p :: rest)
    else e :: t :: p :: rest

/-- The stack after walking all entries left-to-right, starting from the
synthetic control. -/
def hullStack (l : List Entry) : List Entry :=
  l.foldl (fun st e => pushEntry e st) [control]

/-- The per-unit Pareto frontier (spec section 4.3), cost-ascending with the
control first. -/
def paretoFilter (es : List Entry) : List Entry :=
  (hullStack (List.insertionSort leE (es.filter keepEntry))).reverse

/-! ### Path solver (spec section 4.4)

Modelled from the spec: this stage is the C++ core's priority-queue driven
main loop (spec section 4.4), whose sources are not part of the Python
package.  The priority queue is represented by its contents: at most one
live candidate upgrade per unit, determined by the unit's frontier and
cursor; popping selects the maximum by (ratio `Δreward/Δcost`, then lower
`Δcost`, then lower unit index).  Ratios are exact rationals here in place
of the source's doubles. -/

/-- A candidate upgrade: `Δreward`, `Δcost`, unit index, next arm index. -/
structure Cand where
  dr : ℚ
  dc : ℚ
  u : Nat
  k : Nat
  deriving DecidableEq, Repr

/-- Priority key of a candidate: the marginal efficiency `Δreward/Δcost`. -/
def ratioC (c : Cand) : ℚ := c.dr / c.dc

/-- Element `j` of a frontier (defaulting to the control out of range). -/
def eAt (f : List Entry) (j : Nat) : Entry := f.getD j control

/-- `Δcost` of the `j`-th frontier step. -/
def dcF (f : List Entry) (j : Nat) : ℚ := (eAt f j).c - (eAt f (j - 1)).c

/-- `Δreward` of the `j`-th frontier step. -/
def drF (f : List Entry) (j : Nat) : ℚ := (eAt f j).r - (eAt f (j - 1)).r

/-- The candidate a unit with frontier `f` and cursor `cur` offers: the
upgrade from position `cur - 1` to position `cur`, when the cursor is still
on the frontier. -/
def candOf (f : List Entry) (cur : Nat) : Option (ℚ × ℚ × Nat) :=
  if 1 ≤ cur ∧ cur < f.length then some (drF f cur, dcF f cur, (eAt f cur).k)
  else none

/-- All live candidates, one per unfinished unit; `u0` is the index of the
first unit of `st`. -/
def liveCandsFrom : Nat → List (List Entry × Nat) → List Cand
  | _, [] => []
  | u, (f, cur) :: rest =>
    match candOf f cur with
    | some (dr, dc, k) => ⟨dr, dc, u, k⟩ :: liveCandsFrom (u + 1) rest
    | none => liveCandsFrom (u + 1) rest

/-- All live candidates of the solver state. -/
def liveCands (st : List (List Entry × Nat)) : List Cand := liveCandsFrom 0 st

/-- `x` beats `y` in the priority queue: strictly larger ratio, or equal
ratio and strictly smaller `Δcost` (spec section 4.4 tie-break; the unit
index tie-break is realised by keeping the earlier unit on full ties). -/
def beats (x y : Cand) : Prop :=
  ratioC y < ratioC x ∨ (ratioC y = ratioC x ∧ x.dc < y.dc)

instance : DecidableRel beats := fun x y => by
  unfold beats; infer_instance

/-- Pop the queue maximum: scan keeping the current best, replacing it only
when a later candidate strictly beats it (so full ties resolve to the lower
unit index). -/
def pickBest : List Cand → Option Cand
  | [] => none
  | c :: rest =>
    match pickBest rest with
    | none => some c
    | some b => if beats b c then some b else some c

/-- Advance the cursor of unit `u`. -/
def bump : Nat → List (List Entry × Nat) → List (List Entry × Nat)
  | _, [] => []
  | 0, (f, cur) :: rest => (f, cur + 1) :: rest
  | u + 1, x :: rest => x :: bump u rest

/-- The main loop of spec section 4.4, fuel-indexed.  Stops with a complete
path when the queue empties; stops incomplete when a positive budget would
be exceeded; defensively drops candidates with non-positive `Δcost` (spec
section 4.4 numeric policy).  `acc` holds the emitted steps latest-first. -/
def solveLoop (b : ℚ) : Nat → List (List Entry × Nat) → ℚ → ℚ → List Step →
    List Step × Bool
  | 0, _, _, _, acc => (acc.reverse, false)
  | fuel + 1, st, S, G, acc =>
    match pickBest (liveCands st) with
    | none => (acc.reverse, true)
    | some best =>
      if best.dc ≤ 0 then solveLoop b fuel (bump best.u st) S G acc
      else if 0 < b ∧ b < S + best.dc then (acc.reverse, false)
      else solveLoop b fuel (bump best.u st) (S + best.dc) (G + best.dr)
        (⟨S + best.dc, G + best.dr, best.u, best.k⟩ :: acc)

/-- Run the path solver over the filtered frontiers and assemble the four
parallel output arrays (spec sections 4.4 and 4.5). -/
def fitCore (records : List (List Entry)) (b : ℚ) : SolverOutput :=
  let frontiers := records.map paretoFilter
  let fuel := (frontiers.map List.length).sum + 1
  let res := solveLoop b fuel (frontiers.map (fun f => (f, 1))) 0 0 []
  ⟨res.1.map Step.s, res.1.map Step.g, res.1.map Step.u, res.1.map Step.k,
    res.2⟩

/-! ### The `fit` ingestion pipeline (`Solver.fit`) -/

/-- One input record: a patient id with its ragged lists of treatment ids,
rewards and costs. -/
structure RawRecord where
  pid : String
  tids : List String
  rewards : List ℚ
  costs : List ℚ
  deriving DecidableEq, Repr

/-- A record after phase 1: treatment ids replaced by internal numbers. -/
structure NumRecord where
  pid : String
  tids : List Nat
  rewards : List ℚ
  costs : List ℚ
  deriving DecidableEq, Repr

/-- Phase 1a-c of `fit`: the (patient_id, treatment_id) rows are exploded
and inner-joined against the treatment mapping.  A polars inner join emits
one row per matching mapping row, so a treatment id that occurs several
times in the (unvalidated) mapping contributes several joined rows, and an
id that does not resolve contributes none. -/
def explodeJoin (tm : List (String × Nat)) (data : List RawRecord) :
    List (String × Nat) :=
  data.flatMap (fun r => r.tids.flatMap (fun s =>
    (tm.filter (fun q => decide (q.1 = s))).map (fun q => (r.pid, q.2))))

/-- Phase 1d-e of `fit`: the joined rows are grouped by patient id,
collecting each patient's treatment numbers in row order; rows of
duplicate patient ids merge into one group. -/
def treatmentNums (tm : List (String × Nat)) (data : List RawRecord) :
    List (String × List Nat) :=
  ((explodeJoin tm data).map Prod.fst).dedup.map (fun pid =>
    (pid, ((explodeJoin tm data).filter
      (fun x => decide (x.1 = pid))).map Prod.snd))

/-- Phase 2's join of `fit`: each data record is inner-joined against the
grouped treatment numbers on patient id (the group keys are distinct, so
this join has at most one match per record); a record whose patient has no
surviving joined row disappears entirely.  The rewards and costs lists
pass through untouched, so a duplicated mapping id leaves the treatment
list longer than them. -/
def phase1 (tm : List (String × Nat)) (data : List RawRecord) :
    List NumRecord :=
  data.filterMap (fun r =>
    ((treatmentNums tm data).find? (fun g => decide (g.1 = r.pid))).map
      (fun g => ⟨r.pid, g.2, r.rewards, r.costs⟩))

/-- Patient-id order used by the phase-2 `sort('patient_id')`. -/
def leP (a b : NumRecord) : Prop := ¬ strLt b.pid a.pid

instance : DecidableRel leP := fun a b => by
  unfold leP; infer_instance

/-- Phase 2 of `fit`: sort the surviving records by patient id. -/
def phase2 (l : List NumRecord) : List NumRecord :=
  List.insertionSort leP l

/-- Zip a record's three parallel lists into solver entries.
Modelled from the spec: the C++ core (`solver_cpp`, not part of the Python
sources) consumes the three ragged arrays element-wise per unit; spec
section 6 describes them as equal-length lists.  The Python layer performs
none of the validation of spec section 4.2 (its `fit` carries a literal
`TODO: Data validation`), so no length or sign checking is modelled. -/
def zipEntries : List Nat → List ℚ → List ℚ → List Entry
  | k :: ks, r :: rs, c :: cs => ⟨k, r, c⟩ :: zipEntries ks rs cs
  | _, _, _ => []

/-- The entry list a processed record contributes. -/
def toEntries (r : NumRecord) : List Entry :=
  zipEntries r.tids r.rewards r.costs

/-- The full `fit` data path: phases 1-2 then the modelled core. -/
def fitOutput (tm : List (String × Nat)) (data : List RawRecord) (b : ℚ) :
    SolverOutput :=
  fitCore ((phase2 (phase1 tm data)).map toEntries) b

/-! ### The `Solver` object -/

/-- The `Solver` object state: the two id mappings, the stored budget
(`math.inf` before any fit, modelled as `none`), the stored output
(unset before any fit) and the `_is_fit` flag (an unset attribute before
any fit). -/
structure Solver where
  patient_id_mapping : List (String × Nat)
  treatment_id_mapping : List (String × Nat)
  budget : Option ℚ
  solver_output : Option SolverOutput
  is_fit : Bool
  deriving DecidableEq, Repr

/-- `Solver.__init__`: build the two mappings; nothing else is validated or
stored. -/
def initSolver (unique_patients unique_treatments : List String) : Solver :=
  ⟨patientIdMapping unique_patients, treatmentIdMapping unique_treatments,
    none, none, false⟩

/-- `Solver.fit`: store the budget, run the pipeline, store the output and
set the fitted flag. -/
def fitS (st : Solver) (data : List RawRecord) (b : ℚ) : Solver :=
  { st with
    budget := some b
    solver_output := some (fitOutput st.treatment_id_mapping data b)
    is_fit := true }

/-- The stored output (defaulting to an empty one; reachable states with
`is_fit = true` always carry one). -/
def outOf (st : Solver) : SolverOutput :=
  st.solver_output.getD ⟨[], [], [], [], true⟩

/-- Errors the `Solver` methods surface: the not-fitted guard and the
beyond-path guard of `predict` (spec name `BudgetBeyondPath`; a
`ValueError` in the source). -/
inductive SolverErr where
  | notFit
  | budgetBeyondPath
  deriving DecidableEq, Repr

/-- `budget > self.budget` against the stored budget (`math.inf`, i.e.
`none`, compares greater than everything). -/
def beyondStored (stored : Option ℚ) (b : ℚ) : Prop :=
  match stored with
  | some v => v < b
  | none => False

instance : ∀ s b, Decidable (beyondStored s b) := fun s b => by
  unfold beyondStored; cases s <;> infer_instance

/-- The assignment frame `predict` builds: filter the path to
`spend <= budget`, take each patient's last surviving step, right-join the
patient mapping (so every patient appears, in mapping order), coalesce
missing treatments to 0, and decode treatment numbers through the treatment
mapping (an inner join emitting one row per matching mapping row: a number
absent from the mapping drops the row, a number occurring several times in
the mapping duplicates it). -/
def predictDF (out : SolverOutput) (pm tm : List (String × Nat)) (B : ℚ) :
    List (String × String) :=
  let rows := (out.spend.zip out.ipath).zip out.kpath
  let filtered := rows.filter (fun r => decide (r.1.1 ≤ B))
  pm.flatMap (fun p =>
    let tnum : Nat :=
      (((filtered.filter (fun r => decide (r.1.2 = p.2))).getLast?).map
        (fun r => r.2)).getD 0
    (tm.filter (fun q => decide (q.2 = tnum))).map (fun q => (p.1, q.1)))

/-- `Solver.predict`: the not-fitted assertion, the beyond-path guard, then
the assignment frame. -/
def predictS (st : Solver) (B : ℚ) :
    Except SolverErr (List (String × String)) :=
  if st.is_fit = false then .error .notFit
  else if (outOf st).complete_path = false ∧ beyondStored st.budget B then
    .error .budgetBeyondPath
  else .ok (predictDF (outOf st) st.patient_id_mapping
    st.treatment_id_mapping B)

/-- The `path_` accessor: the whole stored output. -/
def pathAcc (st : Solver) : Except SolverErr SolverOutput :=
  if st.is_fit = false then .error .notFit else .ok (outOf st)

/-- The `path_spend_` accessor. -/
def pathSpendAcc (st : Solver) : Except SolverErr (List ℚ) :=
  if st.is_fit = false then .error .notFit else .ok (outOf st).spend

/-- The `path_gain_` accessor. -/
def pathGainAcc (st : Solver) : Except SolverErr (List ℚ) :=
  if st.is_fit = false then .error .notFit else .ok (outOf st).gain

/-- The `path_allocated_unit_` accessor. -/
def pathUnitAcc (st : Solver) : Except SolverErr (List Nat) :=
  if st.is_fit = false then .error .notFit else .ok (outOf st).ipath

/-- The `path_allocated_arm_` accessor. -/
def pathArmAcc (st : Solver) : Except SolverErr (List Nat) :=
  if st.is_fit = false then .error .notFit else .ok (outOf st).kpath

/-! ### Methods as state transformers

The Python methods act on the solver object; their embedding threads the
object state explicitly.  `predict` and the accessors contain no attribute
assignment in the source, which the embedding renders by returning the
state unchanged alongside the result. -/

/-- `predict` as a state transformer. -/
def predictM (st : Solver) (B : ℚ) :
    Except SolverErr (List (String × String)) × Solver :=
  (predictS st B, st)

/-- `path_` as a state transformer. -/
def pathM (st : Solver) : Except SolverErr SolverOutput × Solver :=
  (pathAcc st, st)

/-- `path_spend_` as a state transformer. -/
def pathSpendM (st : Solver) : Except SolverErr (List ℚ) × Solver :=
  (pathSpendAcc st, st)

/-- `path_gain_` as a state transformer. -/
def pathGainM (st : Solver) : Except SolverErr (List ℚ) × Solver :=
  (pathGainAcc st, st)

/-- `path_allocated_unit_` as a state transformer. -/
def pathUnitM (st : Solver) : Except SolverErr (List Nat) × Solver :=
  (pathUnitAcc st, st)

/-- `path_allocated_arm_` as a state transformer. -/
def pathArmM (st : Solver) : Except SolverErr (List Nat) × Solver :=
  (pathArmAcc st, st)

/-! ### The profiling toggle (`SPARSE_MAQ_PROFILE`)

`fit` reads the environment variable once at entry; when it equals `"1"`
the phases print timings and peak memory to stderr.  Timings and memory are
I/O effects outside the data path; the embedding models the emitted
diagnostic lines abstractly and threads them alongside the unchanged data
path. -/

/-- `fit` with the profiling environment variable: the returned solver
state is computed exactly as in `fitS`; the second component models the
stderr diagnostics. -/
def fitP (st : Solver) (data : List RawRecord) (b : ℚ)
    (env : Option String) : Solver × List String :=
  let PROFILE : Bool := env = some "1"
  let log : List String :=
    if PROFILE then
      ["=== SPARSE_MAQ PROFILING ===", "Phase 1a - select",
        "Phase 1b - explode", "Phase 1c - join",
        "Phase 1d-e - select/group_by", "Phase 2 - data_join_sort",
        "Phase 3 - arrow_conversion", "Phase 4 - type_casting",
        "Phase 5 - cpp_solver"]
    else []
  (fitS st data b, log)

instance {ε α : Type} [DecidableEq ε] [DecidableEq α] :
    DecidableEq (Except ε α) := fun a b =>
  match a, b with
  | .error x, .error y =>
    if h : x = y then .isTrue (by rw [h])
    else .isFalse (by intro hq; cases hq; exact h rfl)
  | .error _, .ok _ => .isFalse (by intro hq; cases hq)
  | .ok _, .error _ => .isFalse (by intro hq; cases hq)
  | .ok x, .ok y =>
    if h : x = y then .isTrue (by rw [h])
    else .isFalse (by intro hq; cases hq; exact h rfl)

/-- The frontier invariants of spec section 3: every step has positive
`Δcost` and the marginal efficiencies `Δreward/Δcost` strictly decrease. -/
def FrontierOK (f : List Entry) : Prop :=
  (∀ j, 1 ≤ j → j < f.length → 0 < dcF f j) ∧
  (∀ j, 1 ≤ j → j + 1 < f.length →
    drF f (j + 1) / dcF f (j + 1) < drF f j / dcF f j)

/-- Well-formedness of the filter's stack (head is the top): walking down
the stack, costs and rewards strictly decrease and the marginal slopes of
consecutive entries strictly increase. -/
def StackOK : List Entry → Prop
  | a :: b :: c :: rest =>
    slope b a < slope c b ∧ b.c < a.c ∧ b.r < a.r ∧ StackOK (b :: c :: rest)
  | [a, b] => b.c < a.c ∧ b.r < a.r
  | _ => True

/-- All frontiers of a solver state satisfy the frontier invariants. -/
def UnitsOK (st : List (List Entry × Nat)) : Prop :=
  ∀ p ∈ st, FrontierOK p.1

/-- The latest cumulative (spend, gain) of a latest-first step list
(`(0, 0)` when empty). -/
def cumHead : List Step → ℚ × ℚ
  | [] => (0, 0)
  | e :: _ => (e.s, e.g)

/-- The marginal efficiencies of a latest-first step list, latest first:
each step's gain delta over its spend delta against the step before it. -/
def revEffs : List Step → List ℚ
  | [] => []
  | e :: rest =>
    (e.g - (cumHead rest).2) / (e.s - (cumHead rest).1) :: revEffs rest

/-- The marginal efficiencies of a forward step list starting from the
cumulative point `(s0, g0)`. -/
def effsF (s0 g0 : ℚ) : List Step → List ℚ
  | [] => []
  | e :: rest => (e.g - g0) / (e.s - s0) :: effsF e.s e.g rest

/-- The marginal-efficiency sequence of two parallel cumulative arrays
(spend, gain) starting from `(s0, g0)`: entry `i` is
`(gain[i] - gain[i-1]) / (spend[i] - spend[i-1])`, with the path origin
standing in at `i = 0`. -/
def effsList (s0 g0 : ℚ) : List ℚ → List ℚ → List ℚ
  | s :: ss, g :: gs => (g - g0) / (s - s0) :: effsList s g ss gs
  | _, _ => []

/-- The final cumulative point of a forward step list starting at
`(s0, g0)`. -/
def endCum (s0 g0 : ℚ) : List Step → ℚ × ℚ
  | [] => (s0, g0)
  | e :: rest => endCum e.s e.g rest

/-- The largest index `j < L` satisfying `P` (none when no index does):
the last element of the filtered index range. -/
def bigJ (L : Nat) (P : Nat → Bool) : Option Nat :=
  ((List.range L).filter P).getLast?

/-- The assignment the claim describes: `kpath[j]` for the largest `j` with
`spend[j] <= B` and `ipath[j] = u`, and the control arm 0 when no such `j`
exists. -/
def claimAssign (out : SolverOutput) (B : ℚ) (u : Nat) : Nat :=
  ((bigJ out.ipath.length (fun j => decide (out.spend.getD j 0 ≤ B) &&
      decide (out.ipath.getD j 0 = u))).map
    (fun j => out.kpath.getD j 0)).getD 0

/-- The treatment number `predict` computes for unit `u`: the last
surviving row's treatment, coalesced to 0. -/
def tnumOf (out : SolverOutput) (B : ℚ) (u : Nat) : Nat :=
  (((((out.spend.zip out.ipath).zip out.kpath).filter
      (fun r => decide (r.1.1 ≤ B))).filter
      (fun r => decide (r.1.2 = u))).getLast?.map (fun r => r.2)).getD 0

/-- A concrete budget-truncated fit: one patient, frontier
control-(47, 10)-(60, 12), fitted with budget 50.  The path stops after the
first upgrade (spend 47) because the next one would reach spend 60 > 50. -/
def truncRec : RawRecord := ⟨"a", ["t1", "t2"], [10, 12], [47, 60]⟩

/-- The solver fitted on `truncRec` with budget 50. -/
def truncSolver : Solver :=
  fitS (initSolver ["a"] ["dns", "t1", "t2"]) [truncRec] 50

/-- A record for a solver whose vocabulary duplicates the arm id "x". -/
def dupRec : RawRecord := ⟨"a", ["x"], [10], [5]⟩

/-- A solver constructed from the duplicate vocabulary ["dns", "x", "x"]
(accepted without validation) and fitted on `dupRec` with no budget cap:
the treatment mapping holds the row ("x", 1) twice. -/
def dupSolver : Solver :=
  fitS (initSolver ["a"] ["dns", "x", "x"]) [dupRec] 0


/-! ## Helper lemmas -/

theorem strLt_trans {a b c : String} (h₁ : strLt a b) (h₂ : strLt b c) :
    strLt a c :=
  lt_trans h₁ h₂

theorem strLt_irrefl (a : String) : ¬ strLt a a :=
  lt_irrefl a.data

theorem strLt_of_ne {a b : String} (h : a ≠ b) : strLt a b ∨ strLt b a := by
  have hd : a.data ≠ b.data := by
    intro hq
    apply h
    cases a
    cases b
    exact congrArg String.mk hq
  exact lt_or_gt_of_ne hd

/-- Dense ranks are strictly monotone in the string order: the index an id
receives is determined by how many distinct smaller ids the column holds,
i.e. by the sorted order of the values, not by iteration order. -/

theorem rankDense_lt_of_strLt {l : List String} {s t : String}
    (hs : s ∈ l) (hst : strLt s t) : rankDense l s < rankDense l t := by
  unfold rankDense
  have hsub : (l.filter (fun x => decide (strLt x s))).toFinset ⊂
      (l.filter (fun x => decide (strLt x t))).toFinset := by
    constructor
    · intro x hx
      simp only [List.mem_toFinset, List.mem_filter, decide_eq_true_eq] at hx ⊢
      exact ⟨hx.1, strLt_trans hx.2 hst⟩
    · intro hsup
      have hmem : s ∈ (l.filter (fun x => decide (strLt x t))).toFinset := by
        simp only [List.mem_toFinset, List.mem_filter, decide_eq_true_eq]
        exact ⟨hs, hst⟩
      have hss := hsup hmem
      simp only [List.mem_toFinset, List.mem_filter, decide_eq_true_eq] at hss
      exact strLt_irrefl s hss.2
  have hcard := Finset.card_lt_card hsub
  rw [List.card_toFinset, List.card_toFinset] at hcard
  omega

/-- Equal dense ranks force equal ids (for ids of the column). -/
theorem rank_inj {l : List String} {s t : String} (hs : s ∈ l) (ht : t ∈ l)
    (h : rankDense l s = rankDense l t) : s = t := by
  by_contra hne
  rcases strLt_of_ne hne with hlt | hlt
  · exact absurd h (Nat.ne_of_lt (rankDense_lt_of_strLt hs hlt))
  · exact absurd h.symm (Nat.ne_of_lt (rankDense_lt_of_strLt ht hlt))

/-- `find?` over a mapping built by pairing each id with an injective key
returns the id paired with the probed key. -/
theorem find?_pairing {l : List String} {s : String} (g : String → Nat)
    (hs : s ∈ l) (hg : ∀ x ∈ l, g x = g s → x = s) :
    (l.map (fun x => (x, g x))).find? (fun p => decide (p.2 = g s)) =
      some (s, g s) := by
  induction l with
  | nil => cases hs
  | cons x rest ih =>
    by_cases hx : g x = g s
    · have hxs : x = s := hg x (List.mem_cons_self x rest) hx
      subst hxs
      simp [List.find?, hx]
    · have hxs : x ≠ s := by
        intro hq; exact hx (hq ▸ rfl)
      have hs' : s ∈ rest := by
        rcases List.mem_cons.mp hs with h | h
        · exact absurd h.symm hxs
        · exact h
      have hg' : ∀ y ∈ rest, g y = g s → y = s := fun y hy =>
        hg y (List.mem_cons_of_mem x hy)
      simp only [List.map_cons, List.find?]
      rw [decide_eq_false hx]
      exact ih hs' hg'

theorem truncSolver_eq :
    truncSolver = ⟨[("a", 0)], [("t1", 1), ("t2", 2), ("dns", 0)], some 50,
      some ⟨[47], [10], [0], [1], false⟩, true⟩ := by
  have hph : (phase2 (phase1 (treatmentIdMapping ["dns", "t1", "t2"])
      [truncRec])).map toEntries = [[⟨1, 10, 47⟩, ⟨2, 12, 60⟩]] := by
    decide
  have hcore : fitOutput (treatmentIdMapping ["dns", "t1", "t2"])
      [truncRec] 50 = fitCore [[⟨1, 10, 47⟩, ⟨2, 12, 60⟩]] 50 := by
    unfold fitOutput
    rw [hph]
  have hval : fitCore [[⟨1, 10, 47⟩, ⟨2, 12, 60⟩]] 50 =
      ⟨[47], [10], [0], [1], false⟩ := by
    norm_num [fitCore, paretoFilter, hullStack, pushEntry, keepEntry, leE,
      control, slope, List.insertionSort, List.orderedInsert, solveLoop,
      liveCands, liveCandsFrom, candOf, pickBest, beats, bump, ratioC, eAt,
      dcF, drF]
  unfold truncSolver fitS initSolver
  dsimp only
  rw [hcore, hval]
  decide

theorem dupSolver_eq :
    dupSolver = ⟨[("a", 0)], [("x", 1), ("x", 1), ("dns", 0)], some 0,
      some ⟨[5], [10], [0], [1], true⟩, true⟩ := by
  have hph : (phase2 (phase1 (treatmentIdMapping ["dns", "x", "x"])
      [dupRec])).map toEntries = [[⟨1, 10, 5⟩]] := by
    decide
  have hcore : fitOutput (treatmentIdMapping ["dns", "x", "x"])
      [dupRec] 0 = fitCore [[⟨1, 10, 5⟩]] 0 := by
    unfold fitOutput
    rw [hph]
  have hval : fitCore [[⟨1, 10, 5⟩]] 0 = ⟨[5], [10], [0], [1], true⟩ := by
    norm_num [fitCore, paretoFilter, hullStack, pushEntry, keepEntry, leE,
      control, slope, List.insertionSort, List.orderedInsert, solveLoop,
      liveCands, liveCandsFrom, candOf, pickBest, beats, bump, ratioC, eAt,
      dcF, drF]
  unfold dupSolver fitS initSolver
  dsimp only
  rw [hcore, hval]
  decide

/-! ## The frontier invariants (spec section 3)

`FrontierOK` is the per-unit frontier contract: strictly increasing cost
step by step, and strictly decreasing marginal efficiency along the
frontier. -/

theorem stackOK_tail {a : Entry} {l : List Entry} (h : StackOK (a :: l)) :
    StackOK l := by
  match l with
  | [] => trivial
  | [b] => trivial
  | b :: c :: rest => exact h.2.2.2

theorem stackOK_head2 {a b : Entry} {l : List Entry}
    (h : StackOK (a :: b :: l)) : b.c < a.c ∧ b.r < a.r := by
  match l with
  | [] => exact h
  | c :: rest => exact ⟨h.2.1, h.2.2.1⟩

/-- The key step lemma of the filter: pushing an entry dominated by nothing
below it (every stack entry has smaller cost, or equal cost and at least
its reward) preserves stack well-formedness, keeps the stack non-empty, and
introduces no entry other than the pushed one. -/
theorem pushEntry_ok {e : Entry} : ∀ {st : List Entry}, StackOK st →
    (∀ t ∈ st, leE t e) →
    StackOK (pushEntry e st) ∧ pushEntry e st ≠ [] ∧
      ∀ x ∈ pushEntry e st, x = e ∨ x ∈ st := by
  intro st
  induction st with
  | nil =>
    intro _ _
    refine ⟨trivial, by simp [pushEntry], ?_⟩
    intro x hx
    simp only [pushEntry, List.mem_singleton] at hx
    exact Or.inl hx
  | cons t rest ih =>
    intro hok hcond
    match rest with
    | [] =>
      by_cases hr : e.r ≤ t.r
      · refine ⟨?_, ?_, ?_⟩
        · simpa only [pushEntry, if_pos hr] using hok
        · simp [pushEntry, hr]
        · intro x hx
          simp only [pushEntry, if_pos hr] at hx
          exact Or.inr hx
      · have htc : t.c < e.c := by
          rcases hcond t (List.mem_singleton_self t) with h | ⟨h1, h2⟩
          · exact h
          · exact absurd h2 hr
        refine ⟨?_, ?_, ?_⟩
        · simp only [pushEntry, if_neg hr]
          exact ⟨htc, lt_of_not_le hr⟩
        · simp [pushEntry, hr]
        · intro x hx
          simp only [pushEntry, if_neg hr] at hx
          rcases List.mem_cons.mp hx with h | h
          · exact Or.inl h
          · exact Or.inr h
    | p :: rest2 =>
      by_cases hr : e.r ≤ t.r
      · refine ⟨?_, by simp [pushEntry, hr], ?_⟩
        · simpa [pushEntry, hr] using hok
        · intro x hx
          simp only [pushEntry, if_pos hr] at hx
          exact Or.inr hx
      · have htc : t.c < e.c := by
          rcases hcond t (List.mem_cons_self t _) with h | ⟨h1, h2⟩
          · exact h
          · exact absurd h2 hr
        by_cases hsl : slope p t ≤ slope t e
        · have hrec := ih (stackOK_tail hok)
            (fun x hx => hcond x (List.mem_cons_of_mem t hx))
          refine ⟨?_, ?_, ?_⟩
          · simpa [pushEntry, hr, hsl] using hrec.1
          · simpa [pushEntry, hr, hsl] using hrec.2.1
          · intro x hx
            simp only [pushEntry, if_neg hr, if_pos hsl] at hx
            rcases hrec.2.2 x hx with h | h
            · exact Or.inl h
            · exact Or.inr (List.mem_cons_of_mem t h)
        · refine ⟨?_, by simp [pushEntry, hr, hsl], ?_⟩
          · simp only [pushEntry, if_neg hr, if_neg hsl]
            exact ⟨lt_of_not_le hsl, htc, lt_of_not_le hr, hok⟩
          · intro x hx
            simp only [pushEntry, if_neg hr, if_neg hsl] at hx
            rcases List.mem_cons.mp hx with h | h
            · exact Or.inl h
            · exact Or.inr h

/-- The filter's fold over a sorted entry list preserves the stack
invariants. -/
theorem hullFold_ok : ∀ (l : List Entry) (st : List Entry), StackOK st →
    st ≠ [] → (∀ e ∈ l, ∀ t ∈ st, leE t e) → List.Pairwise leE l →
    StackOK (l.foldl (fun s e => pushEntry e s) st) ∧
    l.foldl (fun s e => pushEntry e s) st ≠ [] ∧
    ∀ x ∈ l.foldl (fun s e => pushEntry e s) st, x ∈ st ∨ x ∈ l := by
  intro l
  induction l with
  | nil => exact fun st h1 h2 _ _ => ⟨h1, h2, fun x hx => Or.inl hx⟩
  | cons e l ih =>
    intro st hok hne hcond hpair
    have hpush := pushEntry_ok hok (hcond e (List.mem_cons_self e l))
    have hcond' : ∀ e' ∈ l, ∀ t ∈ pushEntry e st, leE t e' := by
      intro e' he' t ht
      rcases hpush.2.2 t ht with h | h
      · subst h
        exact (List.pairwise_cons.mp hpair).1 e' he'
      · exact hcond e' (List.mem_cons_of_mem e he') t h
    have hres := ih (pushEntry e st) hpush.1 hpush.2.1 hcond'
      (List.pairwise_cons.mp hpair).2
    refine ⟨hres.1, hres.2.1, ?_⟩
    intro x hx
    rcases hres.2.2 x hx with h | h
    · rcases hpush.2.2 x h with h' | h'
      · exact Or.inr (h' ▸ List.mem_cons_self e l)
      · exact Or.inl h'
    · exact Or.inr (List.mem_cons_of_mem e h)

theorem stackOK_cost : ∀ {l : List Entry}, StackOK l →
    ∀ i, i + 1 < l.length → (eAt l (i + 1)).c < (eAt l i).c := by
  intro l
  induction l with
  | nil => intro _ i hi; simp at hi
  | cons a l ih =>
    intro hok i hi
    match l, hi with
    | b :: l2, hi =>
      match i with
      | 0 => exact (stackOK_head2 hok).1
      | i + 1 =>
        have := ih (stackOK_tail hok) i (by simpa using hi)
        simpa [eAt, List.getD_cons_succ] using this

theorem stackOK_slope : ∀ {l : List Entry}, StackOK l →
    ∀ i, i + 2 < l.length →
      slope (eAt l (i + 1)) (eAt l i) < slope (eAt l (i + 2)) (eAt l (i + 1)) := by
  intro l
  induction l with
  | nil => intro _ i hi; simp at hi
  | cons a l ih =>
    intro hok i hi
    match l, hi with
    | b :: c :: l3, hi =>
      match i with
      | 0 => exact hok.1
      | i + 1 =>
        have := ih (stackOK_tail hok) i (by simpa using hi)
        simpa [eAt, List.getD_cons_succ] using this

theorem eAt_reverse {l : List Entry} {j : Nat} (hj : j < l.length) :
    eAt l.reverse j = eAt l (l.length - 1 - j) := by
  unfold eAt
  rw [List.getD_eq_getElem _ _ (by simpa using hj),
    List.getD_eq_getElem _ _ (by omega)]
  exact List.getElem_reverse _

/-- Entries surviving the filter's pre-filter have positive cost. -/
theorem keep_pos {e : Entry} (h : keepEntry e = true) : 0 < e.c ∧ 0 < e.r := by
  unfold keepEntry at h
  simp only [decide_eq_true_eq] at h
  exact ⟨h.2.1, h.2.2⟩

/-- The Pareto filter's output satisfies the frontier invariants of spec
section 3: strictly increasing cost and strictly decreasing marginal
efficiency. -/
theorem paretoFilter_ok (es : List Entry) : FrontierOK (paretoFilter es) := by
  have hsorted : List.Pairwise leE (List.insertionSort leE (es.filter keepEntry)) :=
    List.sorted_insertionSort leE (es.filter keepEntry)
  have hcond : ∀ e ∈ List.insertionSort leE (es.filter keepEntry),
      ∀ t ∈ [control], leE t e := by
    intro e he t ht
    have he' : e ∈ es.filter keepEntry :=
      (List.perm_insertionSort leE (es.filter keepEntry)).mem_iff.mp he
    have hk : keepEntry e = true := List.of_mem_filter he'
    rcases List.mem_singleton.mp ht with rfl
    exact Or.inl (keep_pos hk).1
  have hfold := hullFold_ok (List.insertionSort leE (es.filter keepEntry))
    [control] trivial (by simp) hcond hsorted
  set stck := (List.insertionSort leE (es.filter keepEntry)).foldl
    (fun s e => pushEntry e s) [control] with hstack
  have hok : StackOK stck := hfold.1
  have hlen : paretoFilter es = stck.reverse := rfl
  rw [hlen]
  constructor
  · intro j hj1 hj2
    rw [List.length_reverse] at hj2
    unfold dcF
    rw [eAt_reverse (by omega), eAt_reverse (by omega)]
    have harith : stck.length - 1 - (j - 1) = (stck.length - 1 - j) + 1 := by
      omega
    rw [harith]
    have := stackOK_cost hok (stck.length - 1 - j) (by omega)
    linarith
  · intro j hj1 hj2
    rw [List.length_reverse] at hj2
    have hdr1 : drF stck.reverse (j + 1) / dcF stck.reverse (j + 1) =
        slope (eAt stck.reverse j) (eAt stck.reverse (j + 1)) := by
      unfold drF dcF slope
      simp
    have hdr2 : drF stck.reverse j / dcF stck.reverse j =
        slope (eAt stck.reverse (j - 1)) (eAt stck.reverse j) := by
      unfold drF dcF slope
      rfl
    rw [hdr1, hdr2]
    rw [eAt_reverse (by omega), eAt_reverse (by omega), eAt_reverse (by omega)]
    have e1 : stck.length - 1 - j = (stck.length - 2 - j) + 1 := by omega
    have e2 : stck.length - 1 - (j + 1) = stck.length - 2 - j := by omega
    have e3 : stck.length - 1 - (j - 1) = (stck.length - 2 - j) + 2 := by
      omega
    rw [e1, e2, e3]
    exact stackOK_slope hok (stck.length - 2 - j) (by omega)

/-! ## The emitted path has non-increasing marginal efficiency -/

theorem endCum_append_one : ∀ (l : List Step) (s0 g0 : ℚ) (e : Step),
    endCum s0 g0 (l ++ [e]) = (e.s, e.g) := by
  intro l
  induction l with
  | nil => intro s0 g0 e; rfl
  | cons x l ih => intro s0 g0 e; exact ih x.s x.g e

theorem effsF_append_one : ∀ (l : List Step) (s0 g0 : ℚ) (e : Step),
    effsF s0 g0 (l ++ [e]) = effsF s0 g0 l ++
      [(e.g - (endCum s0 g0 l).2) / (e.s - (endCum s0 g0 l).1)] := by
  intro l
  induction l with
  | nil => intro s0 g0 e; rfl
  | cons x l ih =>
    intro s0 g0 e
    simp only [List.cons_append, effsF, endCum, List.append_eq]
    rw [ih x.s x.g e]

theorem effsF_reverse : ∀ acc : List Step,
    effsF 0 0 acc.reverse = (revEffs acc).reverse := by
  intro acc
  induction acc with
  | nil => rfl
  | cons e rest ih =>
    have hend : endCum 0 0 rest.reverse = cumHead rest := by
      match rest with
      | [] => rfl
      | y :: l2 =>
        simp only [cumHead, List.reverse_cons, endCum_append_one]
    simp only [List.reverse_cons, effsF_append_one, ih, hend, revEffs]

theorem effsList_map : ∀ (l : List Step) (s0 g0 : ℚ),
    effsList s0 g0 (l.map Step.s) (l.map Step.g) = effsF s0 g0 l := by
  intro l
  induction l with
  | nil => intro s0 g0; rfl
  | cons e rest ih =>
    intro s0 g0
    simp only [List.map_cons, effsList, effsF, ih]

theorem pickBest_cons_none {c : Cand} {rest : List Cand}
    (h : pickBest rest = none) : pickBest (c :: rest) = some c := by
  simp [pickBest, h]

theorem pickBest_cons_beats {c b : Cand} {rest : List Cand}
    (h : pickBest rest = some b) (hb : beats b c) :
    pickBest (c :: rest) = some b := by
  simp [pickBest, h, if_pos hb]

theorem pickBest_cons_keeps {c b : Cand} {rest : List Cand}
    (h : pickBest rest = some b) (hb : ¬ beats b c) :
    pickBest (c :: rest) = some c := by
  simp [pickBest, h, if_neg hb]

theorem pickBest_none : ∀ {l : List Cand}, pickBest l = none → l = [] := by
  intro l h
  match l with
  | [] => rfl
  | c :: rest =>
    exfalso
    cases hrec : pickBest rest with
    | none => rw [pickBest_cons_none hrec] at h; cases h
    | some b =>
      by_cases hb : beats b c
      · rw [pickBest_cons_beats hrec hb] at h; cases h
      · rw [pickBest_cons_keeps hrec hb] at h; cases h

theorem pickBest_mem : ∀ {l : List Cand} {m : Cand},
    pickBest l = some m → m ∈ l := by
  intro l
  induction l with
  | nil => intro m h; cases h
  | cons c rest ih =>
    intro m h
    cases hrec : pickBest rest with
    | none =>
      rw [pickBest_cons_none hrec] at h
      cases h
      exact List.mem_cons_self c rest
    | some b =>
      by_cases hb : beats b c
      · rw [pickBest_cons_beats hrec hb] at h
        cases h
        exact List.mem_cons_of_mem c (ih hrec)
      · rw [pickBest_cons_keeps hrec hb] at h
        cases h
        exact List.mem_cons_self c rest

theorem pickBest_le : ∀ {l : List Cand} {m : Cand},
    pickBest l = some m → ∀ x ∈ l, ratioC x ≤ ratioC m := by
  intro l
  induction l with
  | nil => intro m h; cases h
  | cons c rest ih =>
    intro m h x hx
    cases hrec : pickBest rest with
    | none =>
      rw [pickBest_cons_none hrec] at h
      cases h
      rcases List.mem_cons.mp hx with rfl | hx'
      · exact le_refl _
      · rw [pickBest_none hrec] at hx'
        cases hx'
    | some b =>
      by_cases hb : beats b c
      · rw [pickBest_cons_beats hrec hb] at h
        cases h
        rcases List.mem_cons.mp hx with rfl | hx'
        · rcases hb with h1 | ⟨h1, h2⟩
          · exact le_of_lt h1
          · exact le_of_eq h1
        · exact ih hrec x hx'
      · rw [pickBest_cons_keeps hrec hb] at h
        cases h
        rcases List.mem_cons.mp hx with rfl | hx'
        · exact le_refl _
        · have hxb := ih hrec x hx'
          have hbc : ratioC b ≤ ratioC c := by
            by_contra hgt
            exact hb (Or.inl (lt_of_not_le hgt))
          exact hxb.trans hbc

theorem candOf_inv {f : List Entry} {cur : Nat} {dr dc : ℚ} {k : Nat}
    (h : candOf f cur = some (dr, dc, k)) :
    1 ≤ cur ∧ cur < f.length ∧ dr = drF f cur ∧ dc = dcF f cur ∧
      k = (eAt f cur).k := by
  unfold candOf at h
  split at h
  · next hc =>
    cases h
    exact ⟨hc.1, hc.2, rfl, rfl, rfl⟩
  · cases h

theorem candOf_succ_ratio {f : List Entry} {cur : Nat} {dr dc : ℚ} {k : Nat}
    {dr' dc' : ℚ} {k' : Nat} (hOK : FrontierOK f)
    (h1 : candOf f cur = some (dr, dc, k))
    (h2 : candOf f (cur + 1) = some (dr', dc', k')) :
    dr' / dc' < dr / dc := by
  obtain ⟨hc1, _, hdr, hdc, _⟩ := candOf_inv h1
  obtain ⟨_, hc2, hdr', hdc', _⟩ := candOf_inv h2
  rw [hdr, hdc, hdr', hdc']
  exact hOK.2 cur hc1 hc2

theorem liveCandsFrom_cons_some {u0 : Nat} {f : List Entry} {cur : Nat}
    {rest : List (List Entry × Nat)} {dr dc : ℚ} {k : Nat}
    (h : candOf f cur = some (dr, dc, k)) :
    liveCandsFrom u0 ((f, cur) :: rest) =
      ⟨dr, dc, u0, k⟩ :: liveCandsFrom (u0 + 1) rest := by
  simp [liveCandsFrom, h]

theorem liveCandsFrom_cons_none {u0 : Nat} {f : List Entry} {cur : Nat}
    {rest : List (List Entry × Nat)} (h : candOf f cur = none) :
    liveCandsFrom u0 ((f, cur) :: rest) = liveCandsFrom (u0 + 1) rest := by
  simp [liveCandsFrom, h]

/-- Membership in the live-candidate list of the head unit or the tail. -/
theorem liveCandsFrom_cases {u0 : Nat} {f : List Entry} {cur : Nat}
    {rest : List (List Entry × Nat)} {cd : Cand}
    (h : cd ∈ liveCandsFrom u0 ((f, cur) :: rest)) :
    (∃ dr dc k, candOf f cur = some (dr, dc, k) ∧ cd = ⟨dr, dc, u0, k⟩) ∨
      cd ∈ liveCandsFrom (u0 + 1) rest := by
  cases hc : candOf f cur with
  | some v =>
    obtain ⟨dr, dcv, k⟩ := v
    rw [liveCandsFrom_cons_some hc] at h
    rcases List.mem_cons.mp h with heq | htail
    · exact Or.inl ⟨dr, dcv, k, rfl, heq⟩
    · exact Or.inr htail
  | none =>
    rw [liveCandsFrom_cons_none hc] at h
    exact Or.inr h

theorem liveCandsFrom_tail_sub {u0 : Nat} {f : List Entry} {cur : Nat}
    {rest : List (List Entry × Nat)} {cd : Cand}
    (h : cd ∈ liveCandsFrom (u0 + 1) rest) :
    cd ∈ liveCandsFrom u0 ((f, cur) :: rest) := by
  cases hc : candOf f cur with
  | some v =>
    obtain ⟨dr, dcv, k⟩ := v
    rw [liveCandsFrom_cons_some hc]
    exact List.mem_cons_of_mem _ h
  | none =>
    rw [liveCandsFrom_cons_none hc]
    exact h

theorem liveCands_src : ∀ (st : List (List Entry × Nat)) (u0 : Nat)
    (cd : Cand), cd ∈ liveCandsFrom u0 st →
    ∃ j f cur, st[j]? = some (f, cur) ∧ cd.u = u0 + j ∧
      candOf f cur = some (cd.dr, cd.dc, cd.k) := by
  intro st
  induction st with
  | nil => intro u0 cd h; cases h
  | cons p rest ih =>
    intro u0 cd h
    obtain ⟨f, cur⟩ := p
    rcases liveCandsFrom_cases h with ⟨dr, dc, k, hc, rfl⟩ | htail
    · exact ⟨0, f, cur, by simp, by simp, hc⟩
    · obtain ⟨j, f', cur', hj, hu, hcand⟩ := ih (u0 + 1) cd htail
      exact ⟨j + 1, f', cur', by simpa using hj, by omega, hcand⟩

theorem liveCands_bump : ∀ (st : List (List Entry × Nat)) (u0 j : Nat)
    (cd : Cand), cd ∈ liveCandsFrom u0 (bump j st) →
    cd ∈ liveCandsFrom u0 st ∨
    ∃ f cur, st[j]? = some (f, cur) ∧ cd.u = u0 + j ∧
      candOf f (cur + 1) = some (cd.dr, cd.dc, cd.k) := by
  intro st
  induction st with
  | nil =>
    intro u0 j cd h
    cases j <;> simp only [bump] at h <;> cases h
  | cons p rest ih =>
    intro u0 j cd h
    obtain ⟨f, cur⟩ := p
    match j with
    | 0 =>
      simp only [bump] at h
      rcases liveCandsFrom_cases h with ⟨dr, dc, k, hc, rfl⟩ | htail
      · exact Or.inr ⟨f, cur, by simp, by simp, hc⟩
      · exact Or.inl (liveCandsFrom_tail_sub htail)
    | j + 1 =>
      simp only [bump] at h
      rcases liveCandsFrom_cases h with ⟨dr, dc, k, hc, rfl⟩ | htail
      · refine Or.inl ?_
        rw [liveCandsFrom_cons_some hc]
        exact List.mem_cons_self _ _
      · rcases ih (u0 + 1) j cd htail with h1 | ⟨f', cur', hj, hu, hcand⟩
        · exact Or.inl (liveCandsFrom_tail_sub h1)
        · exact Or.inr ⟨f', cur', by simpa using hj, by omega, hcand⟩

theorem unitsOK_bump : ∀ (st : List (List Entry × Nat)) (j : Nat),
    UnitsOK st → UnitsOK (bump j st) := by
  intro st
  induction st with
  | nil => intro j h; cases j <;> exact h
  | cons p rest ih =>
    intro j h
    obtain ⟨f, cur⟩ := p
    match j with
    | 0 =>
      intro q hq
      simp only [bump] at hq
      rcases List.mem_cons.mp hq with rfl | hq'
      · exact h (f, cur) (List.mem_cons_self _ _)
      · exact h q (List.mem_cons_of_mem _ hq')
    | j + 1 =>
      intro q hq
      simp only [bump] at hq
      rcases List.mem_cons.mp hq with rfl | hq'
      · exact h (f, cur) (List.mem_cons_self _ _)
      · exact ih j (fun x hx => h x (List.mem_cons_of_mem _ hx)) q hq'

theorem liveCands_dc_pos {st : List (List Entry × Nat)} {cd : Cand}
    (hOK : UnitsOK st) (hcd : cd ∈ liveCands st) : 0 < cd.dc := by
  obtain ⟨j, f, cur, hj, _, hcand⟩ := liveCands_src st 0 cd hcd
  have hmem : (f, cur) ∈ st := List.getElem?_mem hj
  obtain ⟨hc1, hc2, _, hdc, _⟩ := candOf_inv hcand
  rw [hdc]
  exact (hOK (f, cur) hmem).1 cur hc1 hc2

theorem solveLoop_zero (b : ℚ) (st : List (List Entry × Nat)) (S G : ℚ)
    (acc : List Step) : solveLoop b 0 st S G acc = (acc.reverse, false) :=
  rfl

theorem solveLoop_succ_none {b : ℚ} {fuel : Nat}
    {st : List (List Entry × Nat)} {S G : ℚ} {acc : List Step}
    (h : pickBest (liveCands st) = none) :
    solveLoop b (fuel + 1) st S G acc = (acc.reverse, true) := by
  simp [solveLoop, h]

theorem solveLoop_succ_some {b : ℚ} {fuel : Nat}
    {st : List (List Entry × Nat)} {S G : ℚ} {acc : List Step} {best : Cand}
    (h : pickBest (liveCands st) = some best) :
    solveLoop b (fuel + 1) st S G acc =
      if best.dc ≤ 0 then solveLoop b fuel (bump best.u st) S G acc
      else if 0 < b ∧ b < S + best.dc then (acc.reverse, false)
      else solveLoop b fuel (bump best.u st) (S + best.dc) (G + best.dr)
        (⟨S + best.dc, G + best.dr, best.u, best.k⟩ :: acc) := by
  simp [solveLoop, h]

/-- The core invariant of the path solver: at every point of the loop, all
live candidate ratios are bounded by the last emitted efficiency, so the
emitted efficiency sequence only ever decreases. -/
theorem solveLoop_chain : ∀ (fuel : Nat) (st : List (List Entry × Nat))
    (S G : ℚ) (acc : List Step) (b : ℚ),
    UnitsOK st →
    cumHead acc = (S, G) →
    (∀ r, (revEffs acc).head? = some r →
      ∀ cd ∈ liveCands st, ratioC cd ≤ r) →
    List.Chain' (· ≤ ·) (revEffs acc) →
    List.Chain' (fun x y => y ≤ x) (effsF 0 0 (solveLoop b fuel st S G acc).1)
    := by
  intro fuel
  induction fuel with
  | zero =>
    intro st S G acc b _ _ _ hmono
    rw [solveLoop_zero]
    rw [effsF_reverse, List.chain'_reverse]
    exact hmono
  | succ fuel ih =>
    intro st S G acc b hOK hSG hcands hmono
    cases hpick : pickBest (liveCands st) with
    | none =>
      rw [solveLoop_succ_none hpick]
      rw [effsF_reverse, List.chain'_reverse]
      exact hmono
    | some best =>
      rw [solveLoop_succ_some hpick]
      have hbm : best ∈ liveCands st := pickBest_mem hpick
      have hdc : 0 < best.dc := liveCands_dc_pos hOK hbm
      rw [if_neg (not_le.mpr hdc)]
      by_cases hbud : 0 < b ∧ b < S + best.dc
      · rw [if_pos hbud]
        rw [effsF_reverse, List.chain'_reverse]
        exact hmono
      · rw [if_neg hbud]
        have hrev : revEffs (⟨S + best.dc, G + best.dr, best.u, best.k⟩ ::
            acc) = ratioC best :: revEffs acc := by
          simp only [revEffs, hSG, ratioC]
          rw [add_sub_cancel_left, add_sub_cancel_left]
        apply ih (bump best.u st) (S + best.dc) (G + best.dr) _ b
        · exact unitsOK_bump st best.u hOK
        · rfl
        · intro r hr cd hcd
          rw [hrev, List.head?_cons] at hr
          cases hr
          rcases liveCands_bump st 0 best.u cd hcd with h1 |
            ⟨f, cur, hj, hu, hcand⟩
          · exact pickBest_le hpick cd h1
          · obtain ⟨j₀, f₀, cur₀, hj₀, hu₀, hcand₀⟩ :=
              liveCands_src st 0 best hbm
            have hjeq : j₀ = best.u := by omega
            rw [hjeq] at hj₀
            rw [hj₀] at hj
            obtain ⟨hf, hcur⟩ : f₀ = f ∧ cur₀ = cur := by
              have hq := Option.some.inj hj
              exact ⟨congrArg Prod.fst hq, congrArg Prod.snd hq⟩
            rw [hf, hcur] at hcand₀ hj₀
            have hfOK : FrontierOK f := hOK (f, cur) (List.getElem?_mem hj₀)
            exact le_of_lt (candOf_succ_ratio hfOK hcand₀ hcand)
        · rw [hrev]
          rw [List.chain'_cons']
          refine ⟨?_, hmono⟩
          intro y hy
          exact hcands y hy best hbm


/-- The assembled output of the modelled core has a non-increasing
marginal-efficiency sequence, for every input and budget. -/
theorem fitCore_chain (records : List (List Entry)) (b : ℚ) :
    List.Chain' (fun x y => y ≤ x)
      (effsList 0 0 (fitCore records b).spend (fitCore records b).gain) := by
  have h1 : (fitCore records b).spend =
      ((solveLoop b (((records.map paretoFilter).map List.length).sum + 1)
        ((records.map paretoFilter).map (fun f => (f, 1))) 0 0 []).1).map
        Step.s := rfl
  have h2 : (fitCore records b).gain =
      ((solveLoop b (((records.map paretoFilter).map List.length).sum + 1)
        ((records.map paretoFilter).map (fun f => (f, 1))) 0 0 []).1).map
        Step.g := rfl
  rw [h1, h2, effsList_map]
  apply solveLoop_chain
  · intro p hp
    rcases List.mem_map.mp hp with ⟨f, hf, rfl⟩
    rcases List.mem_map.mp hf with ⟨es, _, rfl⟩
    exact paretoFilter_ok es
  · rfl
  · intro r hr
    simp only [revEffs, List.head?] at hr
    cases hr
  · exact List.chain'_nil

/-- C4: for every fit run (any interner inputs, any data, any budget) and
every step index `i ≥ 1` of the emitted path, the marginal efficiency
`(gain[i] - gain[i-1]) / (spend[i] - spend[i-1])` is at most that of the
previous step: the sequence of marginal efficiencies (taken from the path
origin onwards) is non-increasing along the whole path.  Arithmetic is
exact rational here, so the statement holds outright, which subsumes the
claim's `1e-12` relative tie tolerance. -/
theorem C4_efficiency_monotone (up ut : List String)
    (data : List RawRecord) (b : ℚ) :
    List.Chain' (fun x y => y ≤ x)
      (effsList 0 0 (outOf (fitS (initSolver up ut) data b)).spend
        (outOf (fitS (initSolver up ut) data b)).gain) :=
  fitCore_chain ((phase2 (phase1 (treatmentIdMapping ut) data)).map
    toEntries) b

/-! ## The predict assignment (`Solver.predict`) -/

theorem predictDF_eq (out : SolverOutput) (pm tm : List (String × Nat))
    (B : ℚ) :
    predictDF out pm tm B = pm.flatMap (fun p =>
      (tm.filter (fun q => decide (q.2 = tnumOf out B p.2))).map
        (fun q => (p.1, q.1))) := rfl

/-- `bigJ` really picks the largest satisfying index. -/
theorem bigJ_spec : ∀ (L : Nat) (P : Nat → Bool) {j : Nat},
    bigJ L P = some j →
    j < L ∧ P j = true ∧ ∀ j', j < j' → j' < L → P j' = false := by
  intro L
  induction L with
  | zero => intro P j h; cases h
  | succ L ih =>
    intro P j h
    unfold bigJ at h
    rw [List.range_succ, List.filter_append] at h
    by_cases hL : P L = true
    · have hfl : List.filter P [L] = [L] := by simp [List.filter, hL]
      rw [hfl, List.getLast?_concat] at h
      cases h
      refine ⟨Nat.lt_succ_self L, hL, ?_⟩
      intro j' h1 h2
      omega
    · rw [Bool.not_eq_true] at hL
      have hfl : List.filter P [L] = [] := by simp [List.filter, hL]
      rw [hfl, List.append_nil] at h
      obtain ⟨h1, h2, h3⟩ := ih P h
      refine ⟨by omega, h2, ?_⟩
      intro j' hj1 hj2
      by_cases hje : j' = L
      · exact hje ▸ hL
      · exact h3 j' hj1 (by omega)

/-- When `bigJ` finds nothing, no index satisfies `P`. -/
theorem bigJ_none : ∀ (L : Nat) (P : Nat → Bool), bigJ L P = none →
    ∀ j, j < L → P j = false := by
  intro L P h j hj
  by_contra hP
  rw [Bool.not_eq_false] at hP
  have hmem : j ∈ (List.range L).filter P :=
    List.mem_filter.mpr ⟨List.mem_range.mpr hj, hP⟩
  unfold bigJ at h
  match hfe : (List.range L).filter P, hmem, h with
  | [], hmem, _ => cases hmem
  | x :: rest, _, h => rw [List.getLast?_eq_getLast _ (by simp)] at h; cases h

theorem bigJ_congr {L : Nat} {P Q : Nat → Bool}
    (h : ∀ j, j < L → P j = Q j) : bigJ L P = bigJ L Q := by
  unfold bigJ
  rw [List.filter_congr (fun j hj => h j (List.mem_range.mp hj))]

/-- Peeling the top index off `bigJ`. -/
theorem bigJ_succ (L : Nat) (P : Nat → Bool) :
    bigJ (L + 1) P = if P L then some L else bigJ L P := by
  unfold bigJ
  rw [List.range_succ, List.filter_append]
  by_cases hL : P L = true
  · have hfl : List.filter P [L] = [L] := by simp [List.filter, hL]
    rw [hfl, List.getLast?_concat, if_pos hL]
  · rw [Bool.not_eq_true] at hL
    have hfl : List.filter P [L] = [] := by simp [List.filter, hL]
    rw [hfl, List.append_nil, if_neg (by simp [hL])]

/-- The last element of a filtered list, located by index: it sits at the
largest index whose element satisfies the predicate. -/
theorem filter_getLast?_index {α : Type} (Q : α → Bool) (d : α) :
    ∀ l : List α, (l.filter Q).getLast? =
      (bigJ l.length (fun j => Q (l.getD j d))).map (fun j => l.getD j d)
    := by
  intro l
  induction l using List.reverseRecOn with
  | nil => rfl
  | append_singleton l a ih =>
    have hda : (l ++ [a]).getD l.length d = a := by
      simp [List.getD_eq_getElem]
    have hlen : (l ++ [a]).length = l.length + 1 := by simp
    rw [List.filter_append, hlen, bigJ_succ, hda]
    have hcongr : bigJ l.length (fun j => Q ((l ++ [a]).getD j d)) =
        bigJ l.length (fun j => Q (l.getD j d)) := by
      apply bigJ_congr
      intro j hj
      rw [List.getD_append _ _ _ _ hj]
    by_cases hQa : Q a = true
    · have h1 : List.filter Q [a] = [a] := by simp [List.filter, hQa]
      rw [h1, List.getLast?_concat, if_pos hQa, Option.map_some', hda]
    · rw [Bool.not_eq_true] at hQa
      have h1 : List.filter Q [a] = [] := by simp [List.filter, hQa]
      rw [h1, List.append_nil, if_neg (by simp [hQa]), hcongr, ih]
      cases hbj : bigJ l.length (fun j => Q (l.getD j d)) with
      | none => rfl
      | some j =>
        have hj : j < l.length := (bigJ_spec l.length _ hbj).1
        simp only [Option.map_some']
        rw [List.getD_append _ _ _ _ hj]

/-- Two index formulas agree on an optional index when they agree at every
index the option can hold. -/
theorem opt_getD_congr {o : Option Nat} {f g : Nat → Nat}
    (h : ∀ j, o = some j → f j = g j) :
    (o.map f).getD 0 = (o.map g).getD 0 := by
  cases o with
  | none => rfl
  | some j => simp [h j rfl]

theorem flatMap_eq_map_of_singleton {α β : Type} : ∀ (l : List α)
    (f : α → List β) (g : α → β), (∀ x ∈ l, f x = [g x]) →
    l.flatMap f = l.map g := by
  intro l
  induction l with
  | nil => intro f g h; rfl
  | cons x rest ih =>
    intro f g h
    rw [List.flatMap_cons, h x (List.mem_cons_self x rest),
      List.map_cons, ih f g (fun y hy => h y (List.mem_cons_of_mem x hy)),
      List.singleton_append]

/-- In a mapping whose internal indices are pairwise distinct, the rows
matching a present index form exactly one row, which `find?` also returns:
the row-per-match join and the first-match lookup coincide. -/
theorem join_unique : ∀ (tm : List (String × Nat)),
    tm.Pairwise (fun a b => a.2 ≠ b.2) → ∀ (q₀ : String × Nat), q₀ ∈ tm →
    ∀ (k : Nat), q₀.2 = k →
    tm.filter (fun q => decide (q.2 = k)) = [q₀] ∧
    tm.find? (fun q => decide (q.2 = k)) = some q₀ := by
  intro tm
  induction tm with
  | nil => intro _ q₀ hq₀; cases hq₀
  | cons a rest ih =>
    intro hpw q₀ hq₀ k hk
    rcases List.pairwise_cons.mp hpw with ⟨ha, hrest⟩
    rcases List.mem_cons.mp hq₀ with rfl | hmem
    · have hnil : rest.filter (fun q => decide (q.2 = k)) = [] := by
        rw [List.filter_eq_nil_iff]
        intro q hq
        simp only [decide_eq_true_eq]
        rw [← hk]
        exact fun h => ha q hq h.symm
      refine ⟨?_, ?_⟩
      · rw [List.filter_cons, if_pos (by simp [hk]), hnil]
      · exact List.find?_cons_of_pos _ (by simp [hk])
    · have hak : ¬ (decide (a.2 = k) = true) := by
        simp only [decide_eq_true_eq]
        rw [← hk]
        exact ha q₀ hmem
      refine ⟨?_, ?_⟩
      · rw [List.filter_cons, if_neg hak]
        exact (ih hrest q₀ hmem k hk).1
      · rw [List.find?_cons_of_neg _ (by simpa using hak)]
        exact (ih hrest q₀ hmem k hk).2

/-- When the non-DNS vocabulary is free of duplicate ids, the treatment
mapping's internal indices are pairwise distinct, so every decode join has
at most one matching row. -/
theorem tm_keys_pairwise (ut : List String) (hnd : (nonDns ut).Nodup) :
    (treatmentIdMapping ut).Pairwise (fun a b => a.2 ≠ b.2) := by
  unfold treatmentIdMapping
  rw [List.pairwise_append]
  refine ⟨?_, List.pairwise_singleton _ _, ?_⟩
  · rw [List.pairwise_map]
    refine List.Pairwise.imp_of_mem ?_ hnd
    intro a b ha hb hne heq
    exact hne (rank_inj ha hb heq)
  · intro a ha b hb
    rcases List.mem_map.mp ha with ⟨x, hx, rfl⟩
    rw [List.mem_singleton] at hb
    subst hb
    simp [rankDense]

/-- On an output assembled from a step list, the treatment number `predict`
computes coincides with the claim's largest-index formula. -/
theorem predict_tnum (steps : List Step) (g' : List ℚ) (cp : Bool) (B : ℚ)
    (u : Nat) :
    tnumOf ⟨steps.map Step.s, g', steps.map Step.u, steps.map Step.k, cp⟩
        B u =
      claimAssign
        ⟨steps.map Step.s, g', steps.map Step.u, steps.map Step.k, cp⟩
        B u := by
  unfold tnumOf claimAssign
  dsimp only
  have hzip : ((steps.map Step.s).zip (steps.map Step.u)).zip
      (steps.map Step.k) = steps.map (fun e => ((e.s, e.u), e.k)) := by
    rw [List.zip_map', List.zip_map']
  rw [hzip, List.filter_map, List.filter_map, List.filter_filter,
    List.getLast?_map, Option.map_map,
    filter_getLast?_index _ (⟨0, 0, 0, 0⟩ : Step) steps, Option.map_map,
    List.length_map]
  have hcongr : (bigJ steps.length fun j =>
      decide ((List.map Step.s steps).getD j 0 ≤ B) &&
        decide ((List.map Step.u steps).getD j 0 = u)) =
      bigJ steps.length (fun j =>
        ((fun (r : (ℚ × Nat) × Nat) => decide (r.1.2 = u)) ∘
          fun e => ((e.s, e.u), e.k)) (steps.getD j ⟨0, 0, 0, 0⟩) &&
        ((fun (r : (ℚ × Nat) × Nat) => decide (r.1.1 ≤ B)) ∘
          fun e => ((e.s, e.u), e.k)) (steps.getD j ⟨0, 0, 0, 0⟩)) := by
    apply bigJ_congr
    intro j hj
    simp only [Function.comp_apply]
    rw [List.getD_eq_getElem _ _ (by simpa using hj),
      List.getD_eq_getElem _ _ (by simpa using hj),
      List.getD_eq_getElem _ _ hj, List.getElem_map, List.getElem_map]
    exact Bool.and_comm _ _
  rw [hcongr]
  apply opt_getD_congr
  intro j hbj
  have hj : j < steps.length := (bigJ_spec steps.length _ hbj).1
  simp only [Function.comp_apply]
  rw [List.getD_eq_getElem _ _ hj,
    List.getD_eq_getElem _ _
      (show j < (List.map Step.k steps).length by simpa using hj),
    List.getElem_map]

theorem bump_pred (F : List Entry → Prop) : ∀ (st : List (List Entry × Nat))
    (j : Nat), (∀ p ∈ st, F p.1) → ∀ p ∈ bump j st, F p.1 := by
  intro st
  induction st with
  | nil => intro j h; cases j <;> exact h
  | cons p rest ih =>
    intro j h
    obtain ⟨f, cur⟩ := p
    match j with
    | 0 =>
      intro q hq
      simp only [bump] at hq
      rcases List.mem_cons.mp hq with rfl | hq'
      · exact h (f, cur) (List.mem_cons_self _ _)
      · exact h q (List.mem_cons_of_mem _ hq')
    | j + 1 =>
      intro q hq
      simp only [bump] at hq
      rcases List.mem_cons.mp hq with rfl | hq'
      · exact h (f, cur) (List.mem_cons_self _ _)
      · exact ih j (fun x hx => h x (List.mem_cons_of_mem _ hx)) q hq'

/-- Every arm index the loop emits comes from some frontier entry of the
state (or was already in the accumulator). -/
theorem solveLoop_k_pred (K : Nat → Prop) : ∀ (fuel : Nat)
    (st : List (List Entry × Nat)) (S G : ℚ) (acc : List Step) (b : ℚ),
    (∀ p ∈ st, ∀ x ∈ p.1, K x.k) →
    (∀ e ∈ acc, K e.k) →
    ∀ e ∈ (solveLoop b fuel st S G acc).1, K e.k := by
  intro fuel
  induction fuel with
  | zero =>
    intro st S G acc b _ hacc e he
    rw [solveLoop_zero] at he
    exact hacc e (List.mem_reverse.mp he)
  | succ fuel ih =>
    intro st S G acc b hF hacc e he
    cases hpick : pickBest (liveCands st) with
    | none =>
      rw [solveLoop_succ_none hpick] at he
      exact hacc e (List.mem_reverse.mp he)
    | some best =>
      rw [solveLoop_succ_some hpick] at he
      have hbm := pickBest_mem hpick
      have hFb : ∀ p ∈ bump best.u st, ∀ x ∈ p.1, K x.k := by
        intro p hp
        exact bump_pred (fun f => ∀ x ∈ f, K x.k) st best.u hF p hp
      by_cases hdc : best.dc ≤ 0
      · rw [if_pos hdc] at he
        exact ih _ _ _ _ _ hFb hacc e he
      · rw [if_neg hdc] at he
        by_cases hbud : 0 < b ∧ b < S + best.dc
        · rw [if_pos hbud] at he
          exact hacc e (List.mem_reverse.mp he)
        · rw [if_neg hbud] at he
          refine ih _ _ _ _ _ hFb ?_ e he
          intro e' he'
          rcases List.mem_cons.mp he' with rfl | h'
          · obtain ⟨j, f, cur, hj, _, hcand⟩ := liveCands_src st 0 best hbm
            obtain ⟨hc1, hc2, _, _, hkk⟩ := candOf_inv hcand
            have hmem : eAt f cur ∈ f := by
              unfold eAt
              rw [List.getD_eq_getElem _ _ hc2]
              exact List.getElem_mem hc2
            have hKf := hF (f, cur) (List.getElem?_mem hj) (eAt f cur) hmem
            exact hkk ▸ hKf
          · exact hacc e' h'

/-- Every entry of a filtered frontier is the control or one of the raw
entries. -/
theorem paretoFilter_mem {es : List Entry} {x : Entry}
    (hx : x ∈ paretoFilter es) : x = control ∨ x ∈ es := by
  unfold paretoFilter hullStack at hx
  rw [List.mem_reverse] at hx
  have hsorted : List.Pairwise leE
      (List.insertionSort leE (es.filter keepEntry)) :=
    List.sorted_insertionSort leE (es.filter keepEntry)
  have hcond : ∀ e ∈ List.insertionSort leE (es.filter keepEntry),
      ∀ t ∈ [control], leE t e := by
    intro e he t ht
    have he' : e ∈ es.filter keepEntry :=
      (List.perm_insertionSort leE (es.filter keepEntry)).mem_iff.mp he
    rcases List.mem_singleton.mp ht with rfl
    exact Or.inl (keep_pos (List.of_mem_filter he')).1
  have hfold := hullFold_ok (List.insertionSort leE (es.filter keepEntry))
    [control] trivial (by simp) hcond hsorted
  rcases hfold.2.2 x hx with h | h
  · exact Or.inl (List.mem_singleton.mp h)
  · exact Or.inr (List.mem_of_mem_filter
      ((List.perm_insertionSort leE (es.filter keepEntry)).mem_iff.mp h))

theorem zipEntries_k_mem : ∀ (ks : List Nat) (rs cs : List ℚ) (x : Entry),
    x ∈ zipEntries ks rs cs → x.k ∈ ks := by
  intro ks
  induction ks with
  | nil => intro rs cs x h; cases rs <;> cases cs <;> simp [zipEntries] at h
  | cons k ks ih =>
    intro rs cs x h
    match rs, cs with
    | [], _ => simp [zipEntries] at h
    | _ :: _, [] => simp [zipEntries] at h
    | r :: rs, c :: cs =>
      rcases List.mem_cons.mp h with rfl | h'
      · exact List.mem_cons_self _ _
      · exact List.mem_cons_of_mem _ (ih rs cs x h')

/-- Every treatment number a phase-1 record carries came out of the
treatment mapping: it is the second component of some mapping row. -/
theorem phase1_tids_resolve (tm : List (String × Nat))
    (data : List RawRecord) (r : NumRecord) (hr : r ∈ phase1 tm data)
    (kk : Nat) (hk : kk ∈ r.tids) : ∃ q ∈ tm, q.2 = kk := by
  rcases List.mem_filterMap.mp hr with ⟨raw, _, hraw⟩
  rcases Option.map_eq_some'.mp hraw with ⟨g, hfind, hrec⟩
  have htids : r.tids = g.2 := (congrArg NumRecord.tids hrec).symm
  rw [htids] at hk
  have hg : g ∈ treatmentNums tm data := List.mem_of_find?_eq_some hfind
  rcases List.mem_map.mp hg with ⟨pid, _, hpid⟩
  have hsnd : g.2 = ((explodeJoin tm data).filter
      (fun x => decide (x.1 = pid))).map Prod.snd :=
    (congrArg Prod.snd hpid).symm
  rw [hsnd] at hk
  rcases List.mem_map.mp hk with ⟨x, hx, hxk⟩
  have hxe : x ∈ explodeJoin tm data := List.mem_of_mem_filter hx
  unfold explodeJoin at hxe
  rcases List.mem_flatMap.mp hxe with ⟨raw₀, _, hx1⟩
  rcases List.mem_flatMap.mp hx1 with ⟨s, _, hx2⟩
  rcases List.mem_map.mp hx2 with ⟨q, hq, hqx⟩
  refine ⟨q, List.mem_of_mem_filter hq, ?_⟩
  rw [← hxk, ← hqx]

/-- Every arm index on the emitted path resolves in the treatment mapping:
the path only ever mentions arm numbers the phase-1 join produced, and
those came out of the mapping itself. -/
theorem fit_kpath_resolves (tm : List (String × Nat))
    (data : List RawRecord) (b : ℚ) (hdns : ("dns", 0) ∈ tm) :
    ∀ kk ∈ (fitOutput tm data b).kpath, ∃ q ∈ tm, q.2 = kk := by
  intro kk hkk
  have hkp : (fitOutput tm data b).kpath =
      ((solveLoop b
        ((((phase2 (phase1 tm data)).map toEntries).map
          paretoFilter).map List.length).sum.succ
        ((((phase2 (phase1 tm data)).map toEntries).map paretoFilter).map
          (fun f => (f, 1))) 0 0 []).1).map Step.k := rfl
  rw [hkp] at hkk
  rcases List.mem_map.mp hkk with ⟨e, he, rfl⟩
  refine solveLoop_k_pred (fun k0 => ∃ q ∈ tm, q.2 = k0) _ _ 0 0 _ b ?_
    (by intro e' he'; cases he') e he
  intro p hp x hx
  rcases List.mem_map.mp hp with ⟨f, hf, rfl⟩
  rcases List.mem_map.mp hf with ⟨es, hes, rfl⟩
  rcases paretoFilter_mem hx with rfl | hxe
  · exact ⟨("dns", 0), hdns, rfl⟩
  · rcases List.mem_map.mp hes with ⟨r, hr, rfl⟩
    have hk : x.k ∈ r.tids := zipEntries_k_mem r.tids r.rewards r.costs x hxe
    have hr1 : r ∈ phase1 tm data :=
      (List.perm_insertionSort leP (phase1 tm data)).mem_iff.mp hr
    exact phase1_tids_resolve tm data r hr1 x.k hk

/-- The claim's assignment formula yields the control index or an index on
the emitted path. -/
theorem claimAssign_cases (out : SolverOutput) (B : ℚ) (u : Nat) :
    claimAssign out B u = 0 ∨ claimAssign out B u ∈ out.kpath := by
  unfold claimAssign
  cases hbj : bigJ out.ipath.length (fun j =>
      decide (out.spend.getD j 0 ≤ B) &&
      decide (out.ipath.getD j 0 = u)) with
  | none => exact Or.inl rfl
  | some j =>
    simp only [Option.map_some', Option.getD_some]
    by_cases hj : j < out.kpath.length
    · refine Or.inr ?_
      rw [List.getD_eq_getElem _ _ hj]
      exact List.getElem_mem hj
    · exact Or.inl (List.getD_eq_default _ _ (by omega))

/-- C1 counterexample: the claim promises every unit of the population
appears exactly once in the assignment frame of `predict`.  The vocabulary
["dns", "x", "x"] is accepted without validation and maps the arm id "x"
to index 1 twice; the decode join of `predict` emits one row per matching
mapping row, so the single unit "a" appears twice. -/
theorem C1_counterexample :
    dupSolver.patient_id_mapping = [("a", 0)] ∧
    predictS dupSolver 5 = .ok [("a", "x"), ("a", "x")] := by
  rw [dupSolver_eq]
  decide

/-- C1 (amended): after any fit from a vocabulary whose non-DNS arm ids are
free of duplicates, `predict B`'s assignment frame pairs every unit of the
population — exactly once, in mapping order — with the decoded arm
`kpath[j]` for the largest index `j` such that `ipath[j] = u` and
`spend[j] <= B` (`claimAssign`), defaulting to the control arm 0 for units
with no such `j`; the trailing conjuncts certify that `bigJ`, which
`claimAssign` uses, really is the largest such index. -/
theorem C1_amended (up ut : List String) (data : List RawRecord)
    (b B : ℚ) (hnd : (nonDns ut).Nodup) :
    (predictDF (outOf (fitS (initSolver up ut) data b))
        (patientIdMapping up) (treatmentIdMapping ut) B =
      (patientIdMapping up).map (fun p => (p.1,
        (decodeId (treatmentIdMapping ut)
          (claimAssign (outOf (fitS (initSolver up ut) data b))
            B p.2)).getD ""))) ∧
    ((predictDF (outOf (fitS (initSolver up ut) data b))
        (patientIdMapping up) (treatmentIdMapping ut) B).map Prod.fst
      = up) ∧
    (∀ (L : Nat) (P : Nat → Bool) (j : Nat), bigJ L P = some j →
      j < L ∧ P j = true ∧ ∀ j', j < j' → j' < L → P j' = false) ∧
    (∀ (L : Nat) (P : Nat → Bool), bigJ L P = none →
      ∀ j, j < L → P j = false) := by
  have hdns : ("dns", 0) ∈ treatmentIdMapping ut := by
    simp [treatmentIdMapping]
  have hpw : (treatmentIdMapping ut).Pairwise (fun a b => a.2 ≠ b.2) :=
    tm_keys_pairwise ut hnd
  have hmain : predictDF (outOf (fitS (initSolver up ut) data b))
      (patientIdMapping up) (treatmentIdMapping ut) B =
      (patientIdMapping up).map (fun p => (p.1,
        (decodeId (treatmentIdMapping ut)
          (claimAssign (outOf (fitS (initSolver up ut) data b))
            B p.2)).getD "")) := by
    rw [predictDF_eq]
    apply flatMap_eq_map_of_singleton
    intro p _
    have htn : tnumOf (outOf (fitS (initSolver up ut) data b)) B p.2 =
        claimAssign (outOf (fitS (initSolver up ut) data b)) B p.2 :=
      predict_tnum _ _ _ B p.2
    rw [htn]
    have hres : ∃ q ∈ treatmentIdMapping ut,
        q.2 = claimAssign (outOf (fitS (initSolver up ut) data b)) B p.2
        := by
      rcases claimAssign_cases (outOf (fitS (initSolver up ut) data b))
          B p.2 with h0 | hmem
      · exact ⟨("dns", 0), hdns, h0.symm⟩
      · obtain ⟨q, hq, hq2⟩ := fit_kpath_resolves (treatmentIdMapping ut)
          data b hdns _ hmem
        exact ⟨q, hq, hq2⟩
    obtain ⟨q₀, hq₀, hq₀2⟩ := hres
    obtain ⟨hfil, hfind⟩ := join_unique (treatmentIdMapping ut) hpw q₀ hq₀
      (claimAssign (outOf (fitS (initSolver up ut) data b)) B p.2) hq₀2
    rw [hfil]
    unfold decodeId
    rw [hfind]
    rfl
  refine ⟨hmain, ?_, fun L P j h => bigJ_spec L P h, fun L P h => bigJ_none
    L P h⟩
  rw [hmain, List.map_map]
  unfold patientIdMapping
  rw [List.map_map]
  exact List.map_id up

theorem C1_amended_witness :
    (nonDns ["dns", "t1"]).Nodup ∧
    ((predictDF (outOf (fitS (initSolver ["a"] ["dns", "t1"]) [] 0))
        (patientIdMapping ["a"]) (treatmentIdMapping ["dns", "t1"]) 0 =
      (patientIdMapping ["a"]).map (fun p => (p.1,
        (decodeId (treatmentIdMapping ["dns", "t1"])
          (claimAssign (outOf (fitS (initSolver ["a"] ["dns", "t1"]) [] 0))
            0 p.2)).getD ""))) ∧
    ((predictDF (outOf (fitS (initSolver ["a"] ["dns", "t1"]) [] 0))
        (patientIdMapping ["a"]) (treatmentIdMapping ["dns", "t1"]) 0).map
      Prod.fst = ["a"]) ∧
    (∀ (L : Nat) (P : Nat → Bool) (j : Nat), bigJ L P = some j →
      j < L ∧ P j = true ∧ ∀ j', j < j' → j' < L → P j' = false) ∧
    (∀ (L : Nat) (P : Nat → Bool), bigJ L P = none →
      ∀ j, j < L → P j = false)) :=
  ⟨by decide, C1_amended ["a"] ["dns", "t1"] [] 0 0 (by decide)⟩

/-- C7: the `SPARSE_MAQ_PROFILE` toggle never affects results: two runs of
`fit` that differ only in the environment variable's value or presence
return the same solver state (same spend, gain, ipath, kpath,
complete_path, stored budget and mappings). -/
theorem C7_profile_no_effect (st : Solver) (data : List RawRecord) (b : ℚ)
    (e₁ e₂ : Option String) :
    (fitP st data b e₁).1 = (fitP st data b e₂).1 := rfl

/-- C8: fitted data is never mutated after `fit` returns: `predict` with
any budget and every path accessor leave the solver state — the stored
output, the stored budget and both id mappings — unchanged. -/
theorem C8_no_mutation (st : Solver) (B : ℚ) :
    (predictM st B).2 = st ∧ (pathM st).2 = st ∧ (pathSpendM st).2 = st ∧
    (pathGainM st).2 = st ∧ (pathUnitM st).2 = st ∧ (pathArmM st).2 = st :=
  ⟨rfl, rfl, rfl, rfl, rfl, rfl⟩

/-- C3 counterexample: after the truncated fit of `truncSolver`
(budget 50, last emitted spend 47, `complete_path = false`), the claim says
`predict 48` must fail because `48 > spend[L-1] = 47`; the code compares 48
against the stored fit budget 50 instead and succeeds. -/
theorem C3_counterexample :
    (outOf truncSolver).complete_path = false ∧
    (outOf truncSolver).spend.getLast? = some 47 ∧ (47 : ℚ) < 48 ∧
    predictS truncSolver 48 = .ok [("a", "t1")] := by
  rw [truncSolver_eq]
  decide

/-- C3 (amended): after a fit with budget `b`, `predict B` fails with
`BudgetBeyondPath` exactly when `complete_path = false` and `B` exceeds the
budget stored by `fit` (not the last emitted spend); otherwise it returns
the assignment frame. -/
theorem C3_amended (up ut : List String) (data : List RawRecord) (b B : ℚ) :
    predictS (fitS (initSolver up ut) data b) B =
      if (fitOutput (treatmentIdMapping ut) data b).complete_path = false ∧
          b < B then
        .error .budgetBeyondPath
      else
        .ok (predictDF (fitOutput (treatmentIdMapping ut) data b)
          (patientIdMapping up) (treatmentIdMapping ut) B) := by
  by_cases h : (fitOutput (treatmentIdMapping ut) data b).complete_path =
      false ∧ b < B
  · rw [if_pos h]
    simp only [predictS, fitS, initSolver, outOf, Option.getD_some]
    rw [if_neg (by simp), if_pos ⟨h.1, h.2⟩]
  · rw [if_neg h]
    simp only [predictS, fitS, initSolver, outOf, Option.getD_some]
    rw [if_neg (by simp), if_neg (by exact fun hq => h ⟨hq.1, hq.2⟩)]

/-- C10 counterexample: `truncSolver` results from one successful fit, yet
`predict 51` (51 beyond the stored budget 50 of the truncated path) fails —
so not every post-fit call succeeds. -/
theorem C10_counterexample :
    truncSolver.is_fit = true ∧
    predictS truncSolver 51 = .error .budgetBeyondPath := by
  rw [truncSolver_eq]
  decide

/-- C10 (amended): before any fit, `predict` and every path accessor fail
(the not-fitted guard); after one successful fit the accessors all succeed,
and `predict B` succeeds exactly when the path is complete or `B` does not
exceed the fit budget. -/
theorem C10_amended (up ut : List String) (data : List RawRecord)
    (b B : ℚ) :
    predictS (initSolver up ut) B = .error .notFit ∧
    pathAcc (initSolver up ut) = .error .notFit ∧
    pathSpendAcc (initSolver up ut) = .error .notFit ∧
    pathGainAcc (initSolver up ut) = .error .notFit ∧
    pathUnitAcc (initSolver up ut) = .error .notFit ∧
    pathArmAcc (initSolver up ut) = .error .notFit ∧
    (pathAcc (fitS (initSolver up ut) data b)).isOk = true ∧
    (pathSpendAcc (fitS (initSolver up ut) data b)).isOk = true ∧
    (pathGainAcc (fitS (initSolver up ut) data b)).isOk = true ∧
    (pathUnitAcc (fitS (initSolver up ut) data b)).isOk = true ∧
    (pathArmAcc (fitS (initSolver up ut) data b)).isOk = true ∧
    ((predictS (fitS (initSolver up ut) data b) B).isOk =
      ((outOf (fitS (initSolver up ut) data b)).complete_path ||
        decide (B ≤ b))) := by
  refine ⟨rfl, rfl, rfl, rfl, rfl, rfl, rfl, rfl, rfl, rfl, rfl, ?_⟩
  simp only [predictS, fitS, initSolver, outOf, Option.getD_some]
  rw [if_neg (by simp)]
  by_cases hc : (fitOutput (treatmentIdMapping ut) data b).complete_path
  · rw [if_neg (by simp [hc])]
    simp [hc, Except.isOk, Except.toBool]
  · by_cases hb : B ≤ b
    · rw [if_neg ?_]
      · simp [hc, hb, Except.isOk, Except.toBool]
      · rintro ⟨-, hlt⟩
        simp only [beyondStored] at hlt
        exact absurd hb (not_le.mpr hlt)
    · rw [if_pos ⟨by simp [hc], by simpa [beyondStored] using not_le.mp hb⟩]
      simp [hc, hb, Except.isOk, Except.toBool]

/-- C2 counterexample: for the vocabulary `["y", "x"]` first-seen order
would give `y → 1, x → 2`, but the code's dense rank gives `y → 2, x → 1`
(sorted order); and for `["DNS", "x", "y"]` the original-cased id `"DNS"`
is absent from the mapping (only lowercase `"dns"` is decodable). -/
theorem C2_counterexample :
    treatmentIdMapping ["y", "x"] = [("y", 2), ("x", 1), ("dns", 0)] ∧
    lookupNum (treatmentIdMapping ["y", "x"]) "y" ≠ some 1 ∧
    (treatmentIdMapping ["DNS", "x", "y"]).find?
      (fun p => decide (p.1 = "DNS")) = none ∧
    decodeId (treatmentIdMapping ["DNS", "x", "y"]) 0 = some "dns" := by
  decide

/-- C2 (amended): case-insensitive `"dns"` ids are removed and the literal
lowercase pair `("dns", 0)` is appended (so the control arm is index 0 but
the original casing is not preserved); every other arm id receives index
`1 + ` the number of distinct smaller non-DNS ids — indices `1..K-1` in
sorted (dense-rank) order, not first-seen order.  The vocabulary
`{"DNS", "x", "y"}` still yields `dns → 0, x → 1, y → 2`. -/
theorem C2_amended (ids : List String) (s t : String)
    (hs : s ∈ nonDns ids) (_ht : t ∈ nonDns ids) (hst : strLt s t) :
    ("dns", 0) ∈ treatmentIdMapping ids ∧
    (s, rankDense (nonDns ids) s) ∈ treatmentIdMapping ids ∧
    1 ≤ rankDense (nonDns ids) s ∧
    rankDense (nonDns ids) s < rankDense (nonDns ids) t ∧
    treatmentIdMapping ["DNS", "x", "y"] =
      [("x", 1), ("y", 2), ("dns", 0)] := by
  refine ⟨?_, ?_, ?_, rankDense_lt_of_strLt hs hst, by decide⟩
  · simp [treatmentIdMapping]
  · exact List.mem_append_left _ (List.mem_map.mpr ⟨s, hs, rfl⟩)
  · unfold rankDense; omega

/-- C2 witness. -/
theorem C2_amended_witness :
    ("dns", 0) ∈ treatmentIdMapping ["DNS", "x", "y"] ∧
    ("x", rankDense (nonDns ["DNS", "x", "y"]) "x") ∈
      treatmentIdMapping ["DNS", "x", "y"] ∧
    1 ≤ rankDense (nonDns ["DNS", "x", "y"]) "x" ∧
    rankDense (nonDns ["DNS", "x", "y"]) "x" <
      rankDense (nonDns ["DNS", "x", "y"]) "y" ∧
    treatmentIdMapping ["DNS", "x", "y"] =
      [("x", 1), ("y", 2), ("dns", 0)] :=
  C2_amended ["DNS", "x", "y"] "x" "y" (by decide) (by decide) (by decide)

/-- C6 counterexample: with vocabulary `["DNS", "x", "y"]` the arm id
`"DNS"` has no entry in the mapping at all — decoding the control index 0
returns the literal `"dns"`, not the original-cased id. -/
theorem C6_counterexample :
    (treatmentIdMapping ["DNS", "x", "y"]).find?
      (fun p => decide (p.1 = "DNS")) = none ∧
    decodeId (treatmentIdMapping ["DNS", "x", "y"]) 0 = some "dns" ∧
    some "dns" ≠ some "DNS" := by
  decide

/-- C6 (amended): decoding round-trips hold for every unit id and every
non-DNS arm id — decoding the assigned index returns the original id
unchanged — while the control index 0 decodes to the literal lowercase
`"dns"` regardless of the input casing. -/
theorem C6_amended (pids aids : List String) (s a : String)
    (hs : s ∈ pids) (ha : a ∈ nonDns aids) :
    decodeId (patientIdMapping pids) (rankDense pids s - 1) = some s ∧
    decodeId (treatmentIdMapping aids) (rankDense (nonDns aids) a) =
      some a ∧
    decodeId (treatmentIdMapping aids) 0 = some "dns" := by
  refine ⟨?_, ?_, ?_⟩
  · unfold decodeId patientIdMapping
    rw [find?_pairing (fun x => rankDense pids x - 1) hs ?_]
    · rfl
    · intro x hx hrx
      have hrx' : rankDense pids x - 1 = rankDense pids s - 1 := hrx
      refine rank_inj hx hs ?_
      have h1 : 1 ≤ rankDense pids x := by unfold rankDense; omega
      have h2 : 1 ≤ rankDense pids s := by unfold rankDense; omega
      omega
  · unfold decodeId treatmentIdMapping
    rw [List.find?_append]
    rw [find?_pairing (fun x => rankDense (nonDns aids) x) ha ?_]
    · rfl
    · intro x hx hrx
      exact rank_inj hx ha hrx
  · unfold decodeId treatmentIdMapping
    rw [List.find?_append]
    have hnone : ((nonDns aids).map
        (fun x => (x, rankDense (nonDns aids) x))).find?
        (fun p => decide (p.2 = 0)) = none := by
      rw [List.find?_eq_none]
      intro p hp
      rcases List.mem_map.mp hp with ⟨x, _, hx⟩
      subst hx
      simp only [decide_eq_true_eq]
      unfold rankDense
      omega
    rw [hnone]
    rfl

/-- C6 witness. -/
theorem C6_amended_witness :
    decodeId (patientIdMapping ["p1", "p2"]) (rankDense ["p1", "p2"] "p2" - 1)
      = some "p2" ∧
    decodeId (treatmentIdMapping ["DNS", "x", "y"])
      (rankDense (nonDns ["DNS", "x", "y"]) "x") = some "x" ∧
    decodeId (treatmentIdMapping ["DNS", "x", "y"]) 0 = some "dns" :=
  C6_amended ["p1", "p2"] ["DNS", "x", "y"] "p2" "x" (by decide) (by decide)

/-- C9 counterexample: interning duplicate ids does not fail — construction
succeeds and the duplicate rows simply share one index. -/
theorem C9_counterexample :
    initSolver ["a", "a"] ["x", "x"] =
      ⟨[("a", 0), ("a", 0)], [("x", 1), ("x", 1), ("dns", 0)], none, none,
        false⟩ := by
  decide

/-- C9 (amended): the interner performs no duplicate or null validation and
never raises `InvalidInput`: construction succeeds on every input, pairing
each occurrence of an id with its dense index, so duplicate occurrences of
one id receive equal indices; on duplicate-free inputs construction
likewise succeeds. -/
theorem C9_amended (pids : List String) (s : String) (n₁ n₂ : Nat)
    (h₁ : (s, n₁) ∈ patientIdMapping pids)
    (h₂ : (s, n₂) ∈ patientIdMapping pids) :
    n₁ = n₂ ∧ (patientIdMapping pids).length = pids.length ∧
    (treatmentIdMapping pids).length = (nonDns pids).length + 1 := by
  refine ⟨?_, by simp [patientIdMapping], by simp [treatmentIdMapping]⟩
  rcases List.mem_map.mp h₁ with ⟨x, _, hx⟩
  rcases List.mem_map.mp h₂ with ⟨y, _, hy⟩
  have hx1 : x = s := congrArg Prod.fst hx
  have hy1 : y = s := congrArg Prod.fst hy
  have hx2 : rankDense pids x - 1 = n₁ := congrArg Prod.snd hx
  have hy2 : rankDense pids y - 1 = n₂ := congrArg Prod.snd hy
  rw [hx1] at hx2
  rw [hy1] at hy2
  omega

/-- C9 witness. -/
theorem C9_amended_witness :
    (0 : Nat) = 0 ∧ (patientIdMapping ["a", "a"]).length = 2 ∧
    (treatmentIdMapping ["a", "a"]).length = (nonDns ["a", "a"]).length + 1 :=
  C9_amended ["a", "a"] "a" 0 0 (by decide) (by decide)

/-- C5: the code performs no input validation (`fit` carries a literal
`TODO: Data validation` and the error type `InvalidInput` exists nowhere in
the package): a record whose arm id `"z"` does not resolve in the
vocabulary is silently dropped by the phase-1 inner join and `fit` returns
an empty complete path instead of failing and naming unit `"a"`. -/
theorem C5_no_invalid_input :
    Solver.solver_output
        (fitS (initSolver ["a"] ["dns", "t1"]) [⟨"a", ["z"], [1], [1]⟩] 0) =
      some ⟨[], [], [], [], true⟩ ∧
    Solver.is_fit
        (fitS (initSolver ["a"] ["dns", "t1"]) [⟨"a", ["z"], [1], [1]⟩] 0) =
      true := by
  decide

end SparseMaq
